import Mathlib

/-!
Verification of `simple-args-rs` (`src/lib.rs`): a minimal command-line
token parser built on `multimap::MultiMap<String, Option<String>>`.

Modelling choices:
* Rust strings are modelled as `List Char` (`Str`); `str::is_empty`,
  `str::starts_with('-')` and `str::strip_prefix('-')` become the obvious
  list operations.
* `MultiMap<String, Option<String>>` is modelled as an association list
  from key to its ordered value list.  `insert` appends the value to the
  existing key entry, or adds a fresh entry with a singleton list; `get`
  returns the first value of the key's list; `len` counts keys.  These are
  the documented semantics of the `multimap` crate.
* Each method of `Arguments` is translated line by line from the source.
-/

set_option autoImplicit false

namespace SimpleArgs

/-- Tokens are modelled as lists of characters. -/
abbrev Str := List Char

/-- Rust `str::starts_with('-')`. -/
def startsWithDash : Str → Bool
  | [] => false
  | c :: _ => c = '-'

/-- Rust `key.strip_prefix('-')`: removes exactly one leading dash,
returning `none` when the token does not start with a dash. -/
def stripDash : Str → Option Str
  | [] => none
  | c :: rest => if c = '-' then some rest else none

/-- The type `multimap::MultiMap<String, Option<String>>`, modelled as an
association list from key to its ordered, non-empty list of values. -/
abbrev MultiMap := List (Str × List (Option Str))

/-- Rust `MultiMap::insert`: append the value to the key's value list,
or create a fresh singleton entry when the key is new. -/
def MultiMap.insert (m : MultiMap) (k : Str) (v : Option Str) : MultiMap :=
  match m with
  | [] => [(k, [v])]
  | (k1, vs) :: rest =>
    if k1 = k then (k1, vs ++ [v]) :: rest
    else (k1, vs) :: MultiMap.insert rest k v

/-- Rust `MultiMap::get_vec`: the full value list of a key, `none` if absent. -/
def MultiMap.get_vec (m : MultiMap) (k : Str) : Option (List (Option Str)) :=
  match m with
  | [] => none
  | (k1, vs) :: rest => if k1 = k then some vs else MultiMap.get_vec rest k

/-- Rust `MultiMap::get`: the first value inserted for the key. -/
def MultiMap.get (m : MultiMap) (k : Str) : Option (Option Str) :=
  (MultiMap.get_vec m k).bind List.head?

/-- Rust `MultiMap::contains_key`. -/
def MultiMap.contains_key (m : MultiMap) (k : Str) : Bool :=
  (MultiMap.get_vec m k).isSome

/-- Parsed Arguments (`pub struct Arguments`). -/
structure Arguments where
  arg_map : MultiMap

/-- The value stored for one flag occurrence, from the body of
`Arguments::parse`: `None` when the lookahead token is empty or starts
with `-`, otherwise `Some` of it. -/
def valOf (val : Str) : Option Str :=
  if val.isEmpty || startsWithDash val then none else some val

/-- One iteration of the loop in `Arguments::parse`: if the key token
starts with `-`, insert the stripped key with its value; else skip. -/
def parseStep (m : MultiMap) (p : Str × Str) : MultiMap :=
  match stripDash p.1 with
  | some stripped => MultiMap.insert m stripped (valOf p.2)
  | none => m

/-- Rust `Arguments::parse`: iterate over `args` zipped with
`args.skip(1).chain(once(""))`, folding `parseStep` over the pairs. -/
def Arguments.parse (args : List Str) : Arguments :=
  ⟨(args.zip (args.tail ++ [[]])).foldl parseStep []⟩

/-- Rust `Arguments::contains`. -/
def Arguments.contains (a : Arguments) (k : Str) : Bool :=
  MultiMap.contains_key a.arg_map k

/-- Rust `Arguments::contains_val`:
`self.arg_map.get_vec(key).and_then(|vals| vals.iter().find(|&val| val.is_some())).is_some()`. -/
def Arguments.contains_val (a : Arguments) (k : Str) : Bool :=
  ((MultiMap.get_vec a.arg_map k).bind
    (fun vals => vals.find? (fun val => val.isSome))).isSome

/-- Rust `Arguments::is_empty`. -/
def Arguments.is_empty (a : Arguments) : Bool :=
  a.arg_map.isEmpty

/-- Rust `Arguments::get`: `Some(Some(self.arg_map.get(key)?.as_ref()?))`.
Each `?` propagates `None` out of the whole method, so a first value of
`None` (flag present without value) yields the overall result `none`. -/
def Arguments.get (a : Arguments) (k : Str) : Option (Option Str) :=
  match MultiMap.get a.arg_map k with
  | none => none
  | some none => none
  | some (some s) => some (some s)

/-- Rust `Arguments::get_vec`. -/
def Arguments.get_vec (a : Arguments) (k : Str) : Option (List (Option Str)) :=
  MultiMap.get_vec a.arg_map k

/-- Rust `Arguments::len`: number of distinct keys in the multimap. -/
def Arguments.len (a : Arguments) : Nat :=
  a.arg_map.length

/-! Auxiliary views of the parse loop, used to state and prove the claims. -/

/-- The list of (key token, lookahead token) pairs the parse loop visits,
in order: each token paired with its successor, the last with `""`. -/
def pairsOf : List Str → List (Str × Str)
  | [] => []
  | a :: rest => (a, rest.headD []) :: pairsOf rest

/-- The occurrence a single loop iteration emits, if any. -/
def pairOcc (p : Str × Str) : Option (Str × Option Str) :=
  (stripDash p.1).map (fun s => (s, valOf p.2))

/-- The ordered list of (flag name, value) occurrences the parse loop
inserts, left to right. -/
def codeOccurrences (args : List Str) : List (Str × Option Str) :=
  (pairsOf args).filterMap pairOcc

/-- The total number of stored values, summed over all keys. -/
def totalVals (m : MultiMap) : Nat :=
  (m.map (fun p => p.2.length)).sum

/-- Insert a list of occurrences into a multimap, in order. -/
def insertAll (m : MultiMap) (occs : List (Str × Option Str)) : MultiMap :=
  occs.foldl (fun m p => MultiMap.insert m p.1 p.2) m

/-- The values carried by the occurrences of key `k`, in order. -/
def occVals (occs : List (Str × Option Str)) (k : Str) : List (Option Str) :=
  (occs.filter (fun p => p.1 = k)).map Prod.snd

/-- The values of all occurrences of key `k`, in input order. -/
def keyVals (args : List Str) (k : Str) : List (Option Str) :=
  occVals (codeOccurrences args) k

/-- Modelled from the spec: the reference scanning algorithm of spec §4.1.
For each position `i`, `tokens[i]` is the candidate key and `tokens[i+1]`
(or the empty string when out of range) the candidate value; a token
starting with `-` emits one occurrence whose flag name is the token with
one leading `-` removed, with value Absent (`none`) when the candidate
value is empty or starts with `-`, Present otherwise. -/
def refOccurrences (tokens : List Str) : List (Str × Option Str) :=
  (List.range tokens.length).filterMap (fun i =>
    let t := tokens.getD i []
    if startsWithDash t then
      let cand := tokens.getD (i + 1) []
      some (t.tail, if cand.isEmpty || startsWithDash cand then none else some cand)
    else none)

/-- Rust `Arguments::parse` in an explicit error monad: every operation the
Rust source performs is total (no indexing, no unwrap), so the monadic
rendering of the loop has no error branch to take. -/
def parseE (args : List Str) : Except String Arguments := do
  let pairs := args.zip (args.tail ++ [[]])
  let m ← pairs.foldlM (fun m p => pure (parseStep m p)) ([] : MultiMap)
  pure ⟨m⟩

/-! Basic facts about the token-level operations. -/

theorem stripDash_eq_some (t k : Str) : stripDash t = some k ↔ t = '-' :: k := by
  cases t with
  | nil => simp [stripDash]
  | cons c rest => by_cases h : c = '-' <;> simp [stripDash, h]

theorem stripDash_isSome (t : Str) : (stripDash t).isSome = startsWithDash t := by
  cases t with
  | nil => rfl
  | cons c rest => by_cases h : c = '-' <;> simp [stripDash, startsWithDash, h]

theorem pairsOf_map_fst : ∀ args : List Str, (pairsOf args).map Prod.fst = args
  | [] => rfl
  | _ :: rest => by simp [pairsOf, pairsOf_map_fst rest]

theorem zip_eq_pairsOf : ∀ args : List Str, args.zip (args.tail ++ [[]]) = pairsOf args
  | [] => rfl
  | [_] => rfl
  | a :: b :: rest => by
    show (a, b) :: (b :: rest).zip ((b :: rest).tail ++ [[]]) = (a, b) :: pairsOf (b :: rest)
    exact congrArg _ (zip_eq_pairsOf (b :: rest))

/-! Behaviour of `MultiMap.insert` and `insertAll` under `get_vec`. -/

theorem get_vec_insert (k k1 : Str) (v : Option Str) :
    ∀ m : MultiMap, MultiMap.get_vec (MultiMap.insert m k1 v) k =
      if k1 = k then some ((MultiMap.get_vec m k).getD [] ++ [v])
      else MultiMap.get_vec m k
  | [] => by
    by_cases h : k1 = k <;> simp [MultiMap.insert, MultiMap.get_vec, h]
  | (k2, vs) :: rest => by
    by_cases h2 : k2 = k1
    · subst h2
      by_cases h : k2 = k <;> simp [MultiMap.insert, MultiMap.get_vec, h]
    · by_cases h : k2 = k
      · subst h
        have h1 : ¬k1 = k2 := fun e => h2 e.symm
        simp [MultiMap.insert, MultiMap.get_vec, h2, h1]
      · simp [MultiMap.insert, MultiMap.get_vec, h2, h, get_vec_insert k k1 v rest]

theorem get_vec_insertAll_some (k : Str) :
    ∀ (occs : List (Str × Option Str)) (m : MultiMap) (vs : List (Option Str)),
      MultiMap.get_vec m k = some vs →
      MultiMap.get_vec (insertAll m occs) k = some (vs ++ occVals occs k)
  | [], m, vs, h => by simp [insertAll, occVals, h]
  | (k1, v) :: rest, m, vs, h => by
    by_cases h1 : k1 = k
    · subst h1
      have hins : MultiMap.get_vec (MultiMap.insert m k1 v) k1 = some (vs ++ [v]) := by
        rw [get_vec_insert]; simp [h]
      have htail := get_vec_insertAll_some k1 rest (MultiMap.insert m k1 v) (vs ++ [v]) hins
      show MultiMap.get_vec (insertAll (MultiMap.insert m k1 v) rest) k1 = _
      rw [htail]
      simp [occVals]
    · have hins : MultiMap.get_vec (MultiMap.insert m k1 v) k = some vs := by
        rw [get_vec_insert]; simp [h1, h]
      have htail := get_vec_insertAll_some k rest (MultiMap.insert m k1 v) vs hins
      show MultiMap.get_vec (insertAll (MultiMap.insert m k1 v) rest) k = _
      rw [htail]
      simp [occVals, h1]

theorem get_vec_insertAll_none (k : Str) :
    ∀ (occs : List (Str × Option Str)) (m : MultiMap),
      MultiMap.get_vec m k = none →
      MultiMap.get_vec (insertAll m occs) k =
        if occVals occs k = [] then none else some (occVals occs k)
  | [], m, h => by simp [insertAll, occVals, h]
  | (k1, v) :: rest, m, h => by
    by_cases h1 : k1 = k
    · subst h1
      have hins : MultiMap.get_vec (MultiMap.insert m k1 v) k1 = some [v] := by
        rw [get_vec_insert]; simp [h]
      have htail := get_vec_insertAll_some k1 rest (MultiMap.insert m k1 v) [v] hins
      show MultiMap.get_vec (insertAll (MultiMap.insert m k1 v) rest) k1 = _
      rw [htail]
      simp [occVals]
    · have hins : MultiMap.get_vec (MultiMap.insert m k1 v) k = none := by
        rw [get_vec_insert]; simp [h1, h]
      have htail := get_vec_insertAll_none k rest (MultiMap.insert m k1 v) hins
      have hocc : occVals ((k1, v) :: rest) k = occVals rest k := by
        simp [occVals, List.filter_cons, h1]
      show MultiMap.get_vec (insertAll (MultiMap.insert m k1 v) rest) k = _
      rw [htail, hocc]

/-! The parse loop, rephrased as inserting the occurrence list in order. -/

theorem foldl_parseStep :
    ∀ (ps : List (Str × Str)) (m : MultiMap),
      ps.foldl parseStep m = insertAll m (ps.filterMap pairOcc)
  | [], _ => rfl
  | p :: rest, m => by
    have ih := foldl_parseStep rest
    cases hs : stripDash p.1 <;>
      simp [parseStep, hs, pairOcc, insertAll, ih]

theorem parse_arg_map (args : List Str) :
    (Arguments.parse args).arg_map = insertAll [] (codeOccurrences args) := by
  show (args.zip (args.tail ++ [[]])).foldl parseStep [] = _
  rw [zip_eq_pairsOf, foldl_parseStep]
  rfl

theorem parse_get_vec (args : List Str) (k : Str) :
    (Arguments.parse args).get_vec k =
      if keyVals args k = [] then none else some (keyVals args k) := by
  show MultiMap.get_vec (Arguments.parse args).arg_map k = _
  rw [parse_arg_map, get_vec_insertAll_none k (codeOccurrences args) [] rfl]
  rfl

theorem parse_contains_iff (args : List Str) (k : Str) :
    (Arguments.parse args).contains k = true ↔ keyVals args k ≠ [] := by
  show (MultiMap.get_vec (Arguments.parse args).arg_map k).isSome = true ↔ _
  rw [show MultiMap.get_vec (Arguments.parse args).arg_map k
        = (Arguments.parse args).get_vec k from rfl, parse_get_vec]
  by_cases h : keyVals args k = [] <;> simp [h]

/-! Keys of the multimap: uniqueness and membership. -/

theorem keys_insert (k : Str) (v : Option Str) :
    ∀ m : MultiMap, (MultiMap.insert m k v).map Prod.fst =
      if (MultiMap.get_vec m k).isSome then m.map Prod.fst else m.map Prod.fst ++ [k]
  | [] => by simp [MultiMap.insert, MultiMap.get_vec]
  | (k1, vs) :: rest => by
    by_cases h : k1 = k
    · subst h
      simp [MultiMap.insert, MultiMap.get_vec]
    · by_cases hc : (MultiMap.get_vec rest k).isSome <;>
        simp [MultiMap.insert, MultiMap.get_vec, h, hc, keys_insert k v rest]

theorem get_vec_eq_none_iff (k : Str) :
    ∀ m : MultiMap, MultiMap.get_vec m k = none ↔ k ∉ m.map Prod.fst
  | [] => by simp [MultiMap.get_vec]
  | (k1, vs) :: rest => by
    by_cases h : k1 = k
    · subst h
      simp [MultiMap.get_vec]
    · have h2 : ¬k = k1 := fun e => h e.symm
      have hr : MultiMap.get_vec ((k1, vs) :: rest) k = MultiMap.get_vec rest k := by
        simp [MultiMap.get_vec, h]
      rw [hr, get_vec_eq_none_iff k rest]
      simp [h2]

theorem keys_nodup_insertAll :
    ∀ (occs : List (Str × Option Str)) (m : MultiMap),
      (m.map Prod.fst).Nodup → ((insertAll m occs).map Prod.fst).Nodup
  | [], _, h => h
  | (k1, v) :: rest, m, h => by
    apply keys_nodup_insertAll rest
    rw [keys_insert]
    by_cases hc : (MultiMap.get_vec m k1).isSome
    · simpa [hc] using h
    · have hn : k1 ∉ m.map Prod.fst :=
        (get_vec_eq_none_iff k1 m).mp (Option.not_isSome_iff_eq_none.mp hc)
      simp only [hc, if_false]
      exact List.Nodup.append h (List.nodup_singleton k1)
        (fun x hx hx1 => hn ((List.mem_singleton.mp hx1) ▸ hx))

theorem parse_keys_nodup (args : List Str) :
    ((Arguments.parse args).arg_map.map Prod.fst).Nodup := by
  rw [parse_arg_map]
  exact keys_nodup_insertAll (codeOccurrences args) [] List.nodup_nil

theorem keyVals_eq_nil_iff (args : List Str) (k : Str) :
    keyVals args k = [] ↔ k ∉ (codeOccurrences args).map Prod.fst := by
  constructor
  · intro h hk
    obtain ⟨p, hp, hpk⟩ := List.mem_map.mp hk
    have : p ∈ (codeOccurrences args).filter (fun p => p.1 = k) :=
      List.mem_filter.mpr ⟨hp, by simp [hpk]⟩
    have : p.2 ∈ keyVals args k := List.mem_map_of_mem Prod.snd this
    simp [h] at this
  · intro h
    by_contra hne
    obtain ⟨v, hv⟩ := List.exists_mem_of_ne_nil _ hne
    obtain ⟨p, hp, hpv⟩ := List.mem_map.mp hv
    obtain ⟨hpm, hpk⟩ := List.mem_filter.mp hp
    exact h (List.mem_map.mpr ⟨p, hpm, by simpa using hpk⟩)

theorem parse_keys_mem (args : List Str) (k : Str) :
    k ∈ (Arguments.parse args).arg_map.map Prod.fst ↔
      k ∈ (codeOccurrences args).map Prod.fst := by
  rw [← not_iff_not, ← get_vec_eq_none_iff, ← keyVals_eq_nil_iff,
    show MultiMap.get_vec (Arguments.parse args).arg_map k
      = (Arguments.parse args).get_vec k from rfl, parse_get_vec]
  by_cases h : keyVals args k = [] <;> simp [h]

/-! Counting values across keys. -/

theorem totalVals_insert (k : Str) (v : Option Str) :
    ∀ m : MultiMap, totalVals (MultiMap.insert m k v) = totalVals m + 1
  | [] => by simp [MultiMap.insert, totalVals]
  | (k1, vs) :: rest => by
    have ih := totalVals_insert k v rest
    simp only [totalVals] at ih
    by_cases h : k1 = k
    · subst h
      have he : MultiMap.insert ((k1, vs) :: rest) k1 v = (k1, vs ++ [v]) :: rest := by
        simp [MultiMap.insert]
      rw [he]
      simp only [totalVals, List.map_cons, List.sum_cons,
        List.length_append, List.length_cons, List.length_nil]
      omega
    · simp only [MultiMap.insert, if_neg h, totalVals, List.map_cons, List.sum_cons]
      omega

theorem totalVals_insertAll :
    ∀ (occs : List (Str × Option Str)) (m : MultiMap),
      totalVals (insertAll m occs) = totalVals m + occs.length
  | [], _ => rfl
  | (k1, v) :: rest, m => by
    show totalVals (insertAll (MultiMap.insert m k1 v) rest) = _
    rw [totalVals_insertAll rest, totalVals_insert]
    simp [Nat.add_comm, Nat.add_assoc, Nat.add_left_comm]

theorem codeOccurrences_cons (a : Str) (rest : List Str) :
    codeOccurrences (a :: rest) =
      (match stripDash a with
       | some s => [(s, valOf (rest.headD []))]
       | none => []) ++ codeOccurrences rest := by
  cases hs : stripDash a <;> simp [codeOccurrences, pairsOf, pairOcc, hs]

theorem codeOccurrences_length :
    ∀ args : List Str, (codeOccurrences args).length = args.countP startsWithDash
  | [] => rfl
  | a :: rest => by
    have ih := codeOccurrences_length rest
    have hs := stripDash_isSome a
    rw [codeOccurrences_cons, List.countP_cons]
    cases hd : stripDash a
    · rw [hd] at hs
      simp at hs
      simp [hs, ih]
    · rw [hd] at hs
      simp at hs
      simp [hs, ih]

/-! The spec's index-based scan emits the same occurrences as the code's
zip-based scan. -/

theorem refOccurrences_cons (t : Str) (ts : List Str) :
    refOccurrences (t :: ts) =
      (if startsWithDash t then [(t.tail, valOf ((t :: ts).getD 1 []))] else [])
        ++ refOccurrences ts := by
  rw [refOccurrences, show (t :: ts).length = ts.length + 1 from rfl,
    List.range_succ_eq_map, List.filterMap_cons, List.filterMap_map]
  have htail : List.filterMap ((fun i =>
      let a := (t :: ts).getD i []
      if startsWithDash a then
        let cand := (t :: ts).getD (i + 1) []
        some (a.tail, if cand.isEmpty || startsWithDash cand then none else some cand)
      else none) ∘ Nat.succ) (List.range ts.length) = refOccurrences ts := rfl
  rw [htail]
  by_cases h : startsWithDash t <;> simp [h, valOf]

theorem refOccurrences_eq :
    ∀ tokens : List Str, refOccurrences tokens = codeOccurrences tokens
  | [] => rfl
  | t :: ts => by
    rw [refOccurrences_cons, codeOccurrences_cons, refOccurrences_eq ts]
    have hcand : (t :: ts).getD 1 [] = ts.headD [] := by cases ts <;> rfl
    rw [hcand]
    cases hd : stripDash t with
    | none =>
      have hsw : startsWithDash t = false := by rw [← stripDash_isSome, hd]; rfl
      simp [hsw]
    | some s =>
      have ht : t = '-' :: s := (stripDash_eq_some t s).mp hd
      subst ht
      simp [startsWithDash]

/-! Per-key occurrence values, token by token. -/

theorem keyVals_cons (a : Str) (rest : List Str) (k : Str) :
    keyVals (a :: rest) k =
      (match stripDash a with
       | some s => if s = k then [valOf (rest.headD [])] else []
       | none => []) ++ keyVals rest k := by
  rw [keyVals, occVals, codeOccurrences_cons, List.filter_append, List.map_append]
  congr 1
  cases hd : stripDash a with
  | none => simp
  | some s => by_cases hk : s = k <;> simp [hk]

theorem keyVals_nil_length :
    ∀ args : List Str, (keyVals args []).length = args.count ['-']
  | [] => rfl
  | a :: rest => by
    have ih := keyVals_nil_length rest
    rw [keyVals_cons, List.length_append, ih, List.count_cons]
    cases hd : stripDash a with
    | none =>
      have ha : ¬['-'] = a := by
        intro e
        rw [← e] at hd
        simp [stripDash] at hd
      have ha2 : ¬a = ['-'] := fun e => ha e.symm
      simp [ha, ha2, Nat.add_comm]
    | some s =>
      have ht : a = '-' :: s := (stripDash_eq_some a s).mp hd
      subst ht
      by_cases hs : s = []
      · subst hs
        simp [Nat.add_comm]
      · have ha : ¬['-'] = '-' :: s := by
          intro e
          exact hs (by injection e with _ e2; exact e2.symm)
        simp [ha, hs, Nat.add_comm]

/-! Occurrence keys always come from a token with one more dash. -/

theorem mem_codeOccurrences_token (args : List Str) (p : Str × Option Str)
    (hp : p ∈ codeOccurrences args) : ('-' :: p.1) ∈ args := by
  obtain ⟨pair, hpair, hpo⟩ := List.mem_filterMap.mp hp
  have hmem : pair.1 ∈ args := by
    have h0 := List.mem_map_of_mem Prod.fst hpair
    rwa [pairsOf_map_fst] at h0
  simp only [pairOcc] at hpo
  cases hsp : stripDash pair.1 with
  | none => rw [hsp] at hpo; simp at hpo
  | some s =>
    rw [hsp] at hpo
    simp at hpo
    have h1 : pair.1 = '-' :: s := (stripDash_eq_some pair.1 s).mp hsp
    have h2 : p.1 = s := by rw [← hpo]
    rw [h2, ← h1]
    exact hmem

/-! The error-monad rendering of the parse loop never errors. -/

theorem foldlM_pure_parseStep :
    ∀ (ps : List (Str × Str)) (m : MultiMap),
      ps.foldlM (fun m p => (pure (parseStep m p) : Except String MultiMap)) m
        = pure (ps.foldl parseStep m)
  | [], _ => rfl
  | p :: rest, m => foldlM_pure_parseStep rest (parseStep m p)

theorem parseE_eq (args : List Str) :
    parseE args = Except.ok (Arguments.parse args) := by
  unfold parseE
  show List.foldlM (fun m p => pure (parseStep m p)) [] (args.zip (args.tail ++ [[]]))
      >>= (fun m => pure { arg_map := m }) = Except.ok (Arguments.parse args)
  rw [foldlM_pure_parseStep]
  rfl

/-! Entries of a multimap with distinct keys are recovered by lookup. -/

theorem get_vec_of_mem_nodup (k : Str) (vs : List (Option Str)) :
    ∀ m : MultiMap, (m.map Prod.fst).Nodup → (k, vs) ∈ m →
      MultiMap.get_vec m k = some vs
  | [], _, hm => absurd hm (List.not_mem_nil _)
  | (k1, vs1) :: rest, hnd, hm => by
    rcases List.mem_cons.mp hm with he | ht
    · cases he
      simp [MultiMap.get_vec]
    · have hnd2 := hnd
      rw [List.map_cons] at hnd2
      have h1 : k1 ∉ List.map Prod.fst rest := (List.nodup_cons.mp hnd2).1
      have h2 : (List.map Prod.fst rest).Nodup := (List.nodup_cons.mp hnd2).2
      have hk1 : ¬k1 = k := by
        intro e
        subst e
        exact h1 (List.mem_map.mpr ⟨(k1, vs), ht, rfl⟩)
      simp only [MultiMap.get_vec, if_neg hk1]
      exact get_vec_of_mem_nodup k vs rest h2 ht

/-! The claims. -/

/-- Claim C1 (evidence of a code bug): after parsing `["-key"]` the key
`"key"` exists in the index and its first (only) occurrence value is
Absent, yet `get` returns `none` — the very same signal it returns for a
key with no occurrence at all.  The found-but-value-absent outcome is not
a distinct signal in `Arguments::get`, because its second `?` operator
propagates the Absent value out of the whole method. -/
theorem get_collapses_absent_into_not_found :
    (Arguments.parse [['-','k','e','y']]).contains ['k','e','y'] = true ∧
    (Arguments.parse [['-','k','e','y']]).get_vec ['k','e','y'] = some [none] ∧
    (Arguments.parse [['-','k','e','y']]).get ['k','e','y'] = none ∧
    (Arguments.parse [['-','k','e','y']]).contains ['z'] = false ∧
    (Arguments.parse [['-','k','e','y']]).get ['z'] = none := by
  refine ⟨by decide, by decide, by decide, by decide, by decide⟩

/-- Claim C2: for every input sequence, the occurrences inserted by
`Arguments::parse` (zip-with-lookahead loop) are exactly those of the
spec's reference index-based scan, in order, and the parsed multimap is
the result of appending that occurrence list into an empty multimap. -/
theorem parse_matches_reference_scan (args : List Str) :
    codeOccurrences args = refOccurrences args ∧
    (Arguments.parse args).arg_map = insertAll [] (refOccurrences args) := by
  refine ⟨(refOccurrences_eq args).symm, ?_⟩
  rw [refOccurrences_eq, parse_arg_map]

/-- Claim C3: the sum over all (distinct) keys of the index of the length
of that key's value list equals the number of input tokens that begin
with `-`; the key list of the parsed index has no duplicates. -/
theorem total_value_count (args : List Str) :
    (((Arguments.parse args).arg_map.map Prod.fst).map
        (fun k => (((Arguments.parse args).get_vec k).getD []).length)).sum
      = args.countP startsWithDash ∧
    ((Arguments.parse args).arg_map.map Prod.fst).Nodup := by
  have hnd := parse_keys_nodup args
  refine ⟨?_, hnd⟩
  have hmap : (((Arguments.parse args).arg_map.map Prod.fst).map
      (fun k => (((Arguments.parse args).get_vec k).getD []).length))
      = (Arguments.parse args).arg_map.map (fun p => p.2.length) := by
    rw [List.map_map]
    apply List.map_congr_left
    intro p hp
    have hg : MultiMap.get_vec (Arguments.parse args).arg_map p.1 = some p.2 :=
      get_vec_of_mem_nodup p.1 p.2 _ hnd hp
    simp [Arguments.get_vec, hg]
  rw [hmap]
  show totalVals (Arguments.parse args).arg_map = _
  rw [parse_arg_map, totalVals_insertAll, codeOccurrences_length]
  simp [totalVals]

/-- Claim C4: `contains` is true exactly when the key has at least one
occurrence (of any value), and `contains_val` is true exactly when the
key has at least one occurrence whose value is Present. -/
theorem contains_and_contains_val (args : List Str) (k : Str) :
    ((Arguments.parse args).contains k = true ↔ keyVals args k ≠ []) ∧
    ((Arguments.parse args).contains_val k = true ↔
      ∃ v, some v ∈ keyVals args k) := by
  refine ⟨parse_contains_iff args k, ?_⟩
  show ((((Arguments.parse args).get_vec k).bind
    (fun vals => vals.find? (fun val => val.isSome))).isSome = true) ↔ _
  rw [parse_get_vec]
  by_cases h : keyVals args k = []
  · simp [h]
  · rw [if_neg h]
    show (((keyVals args k).find? (fun val => val.isSome)).isSome = true) ↔ _
    rw [List.find?_isSome]
    constructor
    · rintro ⟨x, hx, hs⟩
      obtain ⟨v, rfl⟩ := Option.isSome_iff_exists.mp hs
      exact ⟨v, hx⟩
    · rintro ⟨v, hv⟩
      exact ⟨some v, hv, rfl⟩

/-- Claim C5: `get_vec` returns `none` when the key has no occurrence,
and otherwise all of the key's occurrence values, first to last. -/
theorem get_vec_first_to_last (args : List Str) (k : Str) :
    (Arguments.parse args).get_vec k =
      if keyVals args k = [] then none else some (keyVals args k) :=
  parse_get_vec args k

/-- Claim C6: `len` counts distinct keys, `is_empty` holds exactly when
`len` is zero, parsing the empty sequence gives an empty index, and so
does parsing one token without a leading dash. -/
theorem len_distinct_keys (args : List Str) (t : Str)
    (h : startsWithDash t = false) :
    (Arguments.parse args).len = ((codeOccurrences args).map Prod.fst).toFinset.card ∧
    ((Arguments.parse args).is_empty = true ↔ (Arguments.parse args).len = 0) ∧
    (Arguments.parse []).len = 0 ∧
    (Arguments.parse []).is_empty = true ∧
    (Arguments.parse [t]).len = 0 ∧
    (Arguments.parse [t]).is_empty = true := by
  have hnodup := parse_keys_nodup args
  have hcard : ((Arguments.parse args).arg_map.map Prod.fst).toFinset.card
      = (Arguments.parse args).len := by
    rw [List.toFinset_card_of_nodup hnodup]
    simp [Arguments.len]
  have hext : ((Arguments.parse args).arg_map.map Prod.fst).toFinset
      = ((codeOccurrences args).map Prod.fst).toFinset := by
    ext x
    simp only [List.mem_toFinset]
    exact parse_keys_mem args x
  have hsd : stripDash t = none := by
    cases hd : stripDash t with
    | none => rfl
    | some s =>
      have h2 := stripDash_isSome t
      rw [hd, h] at h2
      simp at h2
  have hnil : (Arguments.parse [t]).arg_map = [] := by
    show parseStep [] (t, []) = []
    simp [parseStep, hsd]
  refine ⟨by rw [← hext, hcard], ?_, rfl, rfl, ?_, ?_⟩
  · show (Arguments.parse args).arg_map.isEmpty = true ↔
      (Arguments.parse args).arg_map.length = 0
    simp [List.isEmpty_iff, List.length_eq_zero]
  · show (Arguments.parse [t]).arg_map.length = 0
    rw [hnil]
    rfl
  · show (Arguments.parse [t]).arg_map.isEmpty = true
    rw [hnil]
    rfl

/-- Claim C6 witness: a concrete bare token yields an empty index. -/
theorem len_distinct_keys_witness :
    startsWithDash ['a'] = false ∧ (Arguments.parse [['a']]).is_empty = true :=
  ⟨by decide, (len_distinct_keys [['a']] ['a'] (by decide)).2.2.2.2.2⟩

/-- Claim C7: parsing is total — its error-monad rendering always returns
`ok` — and querying an unknown key yields the explicit not-found signals
(`contains` false, `get` and `get_vec` `none`) rather than any failure;
all query operations are plain total functions of the embedding. -/
theorem operations_total (args : List Str) (k : Str)
    (h : (Arguments.parse args).contains k = false) :
    parseE args = Except.ok (Arguments.parse args) ∧
    (Arguments.parse args).get k = none ∧
    (Arguments.parse args).get_vec k = none := by
  have hv : MultiMap.get_vec (Arguments.parse args).arg_map k = none := by
    cases hg : MultiMap.get_vec (Arguments.parse args).arg_map k with
    | none => rfl
    | some vs =>
      have hc : (Arguments.parse args).contains k = true := by
        simp [Arguments.contains, MultiMap.contains_key, hg]
      rw [hc] at h
      simp at h
  refine ⟨parseE_eq args, ?_, hv⟩
  simp [Arguments.get, MultiMap.get, hv]

/-- Claim C7 witness: on an input containing an empty-string token and a
dash-only token, parsing succeeds and an unknown key is reported absent. -/
theorem operations_total_witness :
    (Arguments.parse [[], ['-']]).contains ['z'] = false ∧
    (parseE [[], ['-']] = Except.ok (Arguments.parse [[], ['-']]) ∧
     (Arguments.parse [[], ['-']]).get ['z'] = none ∧
     (Arguments.parse [[], ['-']]).get_vec ['z'] = none) :=
  ⟨by decide, operations_total [[], ['-']] ['z'] (by decide)⟩

/-- Claim C8: every key present in the parsed index comes from an input
token that is the key with exactly one extra leading dash; concretely,
`--verbose`-style tokens keep the leftover dash in the flag name. -/
theorem one_dash_stripped (args : List Str) (k : Str) (vs : List (Option Str))
    (h : (Arguments.parse args).get_vec k = some vs) :
    ('-' :: k) ∈ args ∧
    (Arguments.parse [['-','-','v']]).contains ['-','v'] = true ∧
    (Arguments.parse [['-','-','v']]).contains ['v'] = false := by
  refine ⟨?_, by decide, by decide⟩
  have hne : keyVals args k ≠ [] := by
    intro he
    rw [parse_get_vec, he] at h
    simp at h
  have h2 : k ∈ (codeOccurrences args).map Prod.fst := by
    by_contra hk
    exact hne ((keyVals_eq_nil_iff args k).mpr hk)
  obtain ⟨p, hp, hpk⟩ := List.mem_map.mp h2
  have h3 := mem_codeOccurrences_token args p hp
  rwa [hpk] at h3

/-- Claim C8 witness: the flag name `a` of `parse ["-a"]` re-dashed is an
input token. -/
theorem one_dash_stripped_witness :
    (Arguments.parse [['-','a']]).get_vec ['a'] = some [none] ∧
    ('-' :: ['a']) ∈ [['-','a']] :=
  ⟨by decide, (one_dash_stripped [['-','a']] ['a'] [none] (by decide)).1⟩

/-- Claim C9: a key is in the index exactly when its value list exists and
is non-empty; no key ever maps to an empty value list. -/
theorem no_empty_value_list (args : List Str) (k : Str) :
    ((Arguments.parse args).contains k = true ↔
      ∃ vs, (Arguments.parse args).get_vec k = some vs ∧ vs ≠ []) ∧
    (Arguments.parse args).get_vec k ≠ some [] := by
  constructor
  · rw [parse_contains_iff, parse_get_vec]
    by_cases hk : keyVals args k = [] <;> simp [hk]
  · rw [parse_get_vec]
    by_cases hk : keyVals args k = [] <;> simp [hk]

/-- Claim C9 witness: a concrete parsed key has a non-empty value list. -/
theorem no_empty_value_list_witness :
    (Arguments.parse [['-','k']]).get_vec ['k'] ≠ some [] :=
  (no_empty_value_list [['-','k']] ['k']).2

/-- Claim C10: a dash-only token `"-"` registers an occurrence under the
empty-string flag name: the empty key is contained, and its value list
has exactly one entry per `"-"` token of the input. -/
theorem dash_only_token (args : List Str) (h : ['-'] ∈ args) :
    (Arguments.parse args).contains [] = true ∧
    (((Arguments.parse args).get_vec []).getD []).length = args.count ['-'] := by
  have hpos : 0 < args.count ['-'] := List.count_pos_iff.mpr h
  have hlen : (keyVals args []).length = args.count ['-'] := keyVals_nil_length args
  have hne : keyVals args [] ≠ [] := by
    intro he
    rw [he] at hlen
    simp at hlen
    omega
  constructor
  · exact (parse_contains_iff args []).mpr hne
  · rw [show (Arguments.parse args).get_vec [] =
        if keyVals args [] = [] then none else some (keyVals args [])
      from parse_get_vec args []]
    simp [hne, hlen]

/-- Claim C10 witness: two `"-"` tokens give the empty key two entries. -/
theorem dash_only_token_witness :
    ['-'] ∈ [['-'], ['x'], ['-']] ∧
    ((Arguments.parse [['-'], ['x'], ['-']]).contains [] = true ∧
     (((Arguments.parse [['-'], ['x'], ['-']]).get_vec []).getD []).length
       = [['-'], ['x'], ['-']].count ['-']) :=
  ⟨by decide, dash_only_token [['-'], ['x'], ['-']] (by decide)⟩

end SimpleArgs
